import Mathlib

/-!
Verification of the Coriolanus repository core:
the line normalizer (`src/coriolanus/data/folger_mod_script.py`),
the play parser, the dialogue segmenter and scene lookup
(`src/coriolanus/shakespeare_repl.py`).

Texts are shallowly embedded as `List Char`; a document is a `List Line`
where `Line = List Char` (one physical line).  Python's string helpers
(`strip`, `rstrip`, `split`, `readlines`, `upper`, `find`, ...) are
re-implemented below over `List Char` with their ASCII semantics (all the
data processed by this repository is ASCII play text; Python's Unicode
classes coincide with the ASCII ones on that data).
-/

namespace Coriolanus

/-- Physical line of text, without any structure imposed. -/
abbrev Line := List Char

/-- Convert a `String` literal to the `List Char` representation. -/
def strL (s : String) : List Char := s.data

/-- ASCII fragment of Python's `str.isspace` / the `\s` class and of
`str.strip`'s default separator set: space, tab, newline, CR, VT, FF. -/
def pyIsSpace (c : Char) : Bool :=
  c = ' ' || c = '\t' || c = '\n' || c = '\r' || c = '\x0b' || c = '\x0c'

/-- ASCII fragment of Python's `str.islower` on a single character. -/
def pyIsLower (c : Char) : Bool := 'a' ≤ c && c ≤ 'z'

/-- ASCII fragment of Python's `str.isupper` / the regex class `[A-Z]`. -/
def pyIsUpper (c : Char) : Bool := 'A' ≤ c && c ≤ 'Z'

/-- ASCII digit, the regex class `\d` on this repository's data. -/
def pyIsDigit (c : Char) : Bool := '0' ≤ c && c ≤ '9'

/-- ASCII fragment of Python's `str.upper` on one character. -/
def pyToUpper (c : Char) : Char :=
  if pyIsLower c then Char.ofNat (c.toNat - 32) else c

/-- Remove the trailing run of characters satisfying `p`; the list analogue
of Python's `str.rstrip` with a one-character separator class. -/
def dropTrailing (p : Char → Bool) : List Char → List Char
  | [] => []
  | c :: cs =>
    let r := dropTrailing p cs
    if r = [] && p c then [] else c :: r

/-- Python's `str.rstrip('\n')`. -/
def pyRstripNl (l : Line) : Line := dropTrailing (fun c => c = '\n') l

/-- Python's `str.strip()` (default whitespace, ASCII fragment). -/
def pyStrip (l : Line) : Line := dropTrailing pyIsSpace (l.dropWhile pyIsSpace)

/-- Python's `file.readlines()` applied to a text: split after every
newline character, keeping the newline at the end of each piece; a final
piece without a newline is kept, an empty tail produces no piece. -/
def pyReadlines : List Char → List (List Char)
  | [] => []
  | c :: cs =>
    if c = '\n' then ['\n'] :: pyReadlines cs
    else
      match pyReadlines cs with
      | [] => [[c]]
      | p :: ps => (c :: p) :: ps

/-- Python's `str.split('\n')`: `""` splits to `[""]`, separators are
dropped and empty pieces are kept. -/
def pySplitNl : List Char → List (List Char)
  | [] => [[]]
  | c :: cs =>
    if c = '\n' then [] :: pySplitNl cs
    else
      match pySplitNl cs with
      | [] => [[c]]
      | p :: ps => (c :: p) :: ps

/-- Python's `'\n'.join(pieces)`. -/
def joinNl : List (List Char) → List Char
  | [] => []
  | [l] => l
  | l :: ls => l ++ '\n' :: joinNl ls

/-- Python's `' '.join(pieces)`. -/
def joinSp : List (List Char) → List Char
  | [] => []
  | [l] => l
  | l :: ls => l ++ ' ' :: joinSp ls

/-- Python's `str.find(sub)`: index of the first occurrence of `pat` in
`s`, `none` for `-1`.  `find("")` is `0`, as in Python. -/
def pyFind (s pat : List Char) : Option Nat :=
  match s with
  | [] => if pat = [] then some 0 else none
  | _ :: cs => if pat.isPrefixOf s then some 0 else (pyFind cs pat).map (· + 1)

/-- Index of the last `'.'` in a name, as used by `pathlib`. -/
def lastDotIdx (name : List Char) : Option Nat :=
  ((List.range name.length).filter (fun i => name.getD i ' ' = '.')).getLast?

/-- The `pathlib.PurePath.suffix` rule for a plain file name: the part from
the last dot on, provided that dot is neither the first nor the last
character; otherwise the empty string. -/
def pySuffix (name : List Char) : List Char :=
  match lastDotIdx name with
  | some i => if 0 < i ∧ i < name.length - 1 then name.drop i else []
  | none => []

/-- The `pathlib.PurePath.stem` rule for a plain file name: everything
before the suffix (the whole name when there is no suffix). -/
def pyStem (name : List Char) : List Char :=
  match lastDotIdx name with
  | some i => if 0 < i ∧ i < name.length - 1 then name.take i else name
  | none => name

/-! ## `get_output_filename` (folger_mod_script.py, lines 83-106) -/


/-- Embedding of `get_output_filename`: find `'TXT'` in the upper-cased
name; when found, keep the part before it, append `folger_mod` and the
original extension (defaulting to `.txt`); otherwise append `_folger_mod`
to the stem before the extension. -/
def get_output_filename (name : List Char) : List Char :=
  match pyFind (name.map pyToUpper) (strL ("TXT")) with
  | some p =>
    let ext := if pySuffix name = [] then strL (".txt") else pySuffix name
    name.take p ++ strL ("folger_mod") ++ ext
  | none => pyStem name ++ strL ("_folger_mod") ++ pySuffix name

/-- String-level wrapper of `get_output_filename`. -/
def get_output_filenameS (s : String) : String :=
  ⟨get_output_filename s.data⟩

/-- Case-insensitive equality of two characters, reading the claim's
"case-insensitive occurrence" literally: both sides upper-cased agree. -/
def ciEq (a b : Char) : Bool := pyToUpper a = pyToUpper b

/-- Does the list start with a case-insensitive occurrence of `TXT`? -/
def ciTxtAt : List Char → Bool
  | c1 :: c2 :: c3 :: _ => ciEq c1 'T' && ciEq c2 'X' && ciEq c3 'T'
  | _ => false

/-- Position of the first case-insensitive occurrence of `TXT`, written
from the claim's words rather than from the code's upper-then-find. -/
def ciFindTxt : List Char → Option Nat
  | [] => none
  | c :: cs => if ciTxtAt (c :: cs) then some 0 else (ciFindTxt cs).map (· + 1)

/-- Spec-side restatement of the claimed filename rule, phrased with the
case-insensitive search `ciFindTxt` instead of the code's
`name.upper().find('TXT')`. -/
def outputNameSpec (name : List Char) : List Char :=
  match ciFindTxt name with
  | some p =>
    let ext := if pySuffix name = [] then strL (".txt") else pySuffix name
    name.take p ++ strL ("folger_mod") ++ ext
  | none => pyStem name ++ strL ("_folger_mod") ++ pySuffix name

/-! ## `ShakespeareReader` (shakespeare_repl.py)

Lines handed to the parser are the `readlines()` pieces of the source
file.  The scene dictionary is modelled as the ordered list of the
assignments `self.scenes[(act, scene)] = content` the loop performs, with
content kept as the list of accumulated lines; `dict.get` is lookup of the
last assignment to the key. -/


/-- Result of `re.match(r'^ACT (\d+)$', line.strip())`: the parsed act
number when the stripped line is exactly `ACT` + space + digits. -/
def parseActHeader (l : Line) : Option Nat :=
  match pyStrip l with
  | 'A' :: 'C' :: 'T' :: ' ' :: ds =>
    if ds ≠ [] ∧ ds.all pyIsDigit then
      some (ds.foldl (fun n c => 10 * n + (c.toNat - 48)) 0)
    else none
  | _ => none

/-- Result of `re.match(r'^Scene (\d+)$', line.strip())`. -/
def parseSceneHeader (l : Line) : Option Nat :=
  match pyStrip l with
  | 'S' :: 'c' :: 'e' :: 'n' :: 'e' :: ' ' :: ds =>
    if ds ≠ [] ∧ ds.all pyIsDigit then
      some (ds.foldl (fun n c => 10 * n + (c.toNat - 48)) 0)
    else none
  | _ => none

/-- Test of `re.match(r'^=+$', line.strip())`: a visual separator row. -/
def isSeparator (l : Line) : Bool :=
  pyStrip l ≠ [] && (pyStrip l).all (fun c => c = '=')

/-- Flush of `_parse_play`: record the accumulated content under
`(current_act, current_scene)` when both are set. -/
def flushScene (acc : List ((Nat × Nat) × List Line)) (a? s? : Option Nat)
    (content : List Line) : List ((Nat × Nat) × List Line) :=
  match a?, s? with
  | some a, some s => acc ++ [((a, s), content)]
  | _, _ => acc

/-- Main loop of `ShakespeareReader._parse_play`, one step per source
line, threading `current_act`, `current_scene`, the content accumulator
and the list of dictionary assignments made so far. -/
def playLoop : List Line → Option Nat → Option Nat → List Line →
    List ((Nat × Nat) × List Line) → List ((Nat × Nat) × List Line)
  | [], a?, s?, content, acc => flushScene acc a? s? content
  | l :: ls, a?, s?, content, acc =>
    match parseActHeader l with
    | some n => playLoop ls (some n) none [] (flushScene acc a? s? content)
    | none =>
      match parseSceneHeader l with
      | some m => playLoop ls a? (some m) [] (flushScene acc a? s? content)
      | none =>
        if a?.isSome && s?.isSome && !isSeparator l then
          playLoop ls a? s? (content ++ [l]) acc
        else playLoop ls a? s? content acc

/-- Embedding of `ShakespeareReader._parse_play` on a list of source
lines: the ordered list of dictionary assignments it performs. -/
def parse_play (lines : List Line) : List ((Nat × Nat) × List Line) :=
  playLoop lines none none [] []

/-- Python `dict.get` over the assignment list: the value of the last
assignment to the key, `none` when the key was never assigned. -/
def dictGet (assigns : List ((Nat × Nat) × List Line)) (k : Nat × Nat) :
    Option (List Line) :=
  (assigns.reverse.find? (fun e => e.1 == k)).map (fun e => e.2)

/-- Embedding of `ShakespeareReader._get_play_name` on the file text:
first line (`f.readline()`), stripped, with the fixed attribution suffix
removed when present, and `"Unknown Play"` when the result is empty. -/
def get_play_name (text : List Char) : List Char :=
  let fl := pyStrip (text.takeWhile (fun c => c ≠ '\n'))
  let sfx := strL (" by William Shakespeare")
  let fl2 := if sfx.isSuffixOf fl then fl.take (fl.length - sfx.length) else fl
  if fl2 = [] then strL ("Unknown Play") else fl2

/-- In-memory state of a `ShakespeareReader` after `__init__`. -/
structure Reader where
  play_name : List Char
  scenes : List ((Nat × Nat) × List Line)

/-- Embedding of `ShakespeareReader.__init__` on the file text. -/
def mkReader (text : List Char) : Reader :=
  ⟨get_play_name text, parse_play (pyReadlines text)⟩

/-- Embedding of `ShakespeareReader.get_scene`: `self.scenes.get((act,
scene))`, a pure lookup that cannot raise and leaves the reader as is. -/
def get_scene (r : Reader) (act scene : Nat) : Option (List Line) :=
  dictGet r.scenes (act, scene)

/-- Is the line neither an `ACT` nor a `Scene` header? -/
def notHeader (l : Line) : Bool :=
  (parseActHeader l).isNone && (parseSceneHeader l).isNone

/-- Spec-side description of the scene blocks, written from the claim's
words: walking the document with the most recent `ACT` number at hand,
every `Scene m` header seen while an act `a` is open declares the pair
`(a, m)` and binds it to the lines lying strictly between that header and
the next `ACT` or `Scene` header (or the end of the file), with separator
rows excluded; lines before any `ACT` header, or between an `ACT` header
and its first `Scene` header, are attributed to no scene. -/
def sceneBlocksSpec : Option Nat → List Line → List ((Nat × Nat) × List Line)
  | _, [] => []
  | a?, l :: ls =>
    match parseActHeader l with
    | some n => sceneBlocksSpec (some n) ls
    | none =>
      match parseSceneHeader l, a? with
      | some m, some a =>
        ((a, m), (ls.takeWhile notHeader).filter (fun x => !isSeparator x)) ::
          sceneBlocksSpec (some a) ls
      | _, _ => sceneBlocksSpec a? ls

/-- Example document of spec §8: two scenes in one act. -/
def exPlay : List Line :=
  [strL ("ACT 1"), strL ("Scene 1"), strL ("HAMLET"), strL ("To be."),
   strL ("Scene 2"), strL ("HORATIO"), strL ("Indeed.")]

/-! ## Play title (C4) -/


/-- Claim-side title rule, from C4's words: the FIRST NON-EMPTY line of
the source file, trimmed, with the attribution suffix stripped when
present. -/
def titleFirstNonEmptySpec (text : List Char) : Option (List Char) :=
  ((pySplitNl text).find? (fun l => !(pyStrip l).isEmpty)).map (fun l =>
    let fl := pyStrip l
    let sfx := strL (" by William Shakespeare")
    if sfx.isSuffixOf fl then fl.take (fl.length - sfx.length) else fl)

/-- Amended title rule: the first line of the file (blank or not),
trimmed, with the attribution suffix stripped when present, and
`"Unknown Play"` when that leaves nothing. -/
def titleAmendedSpec (text : List Char) : List Char :=
  match (pySplitNl text).head? with
  | none => strL ("Unknown Play")
  | some l =>
    let fl := pyStrip l
    let sfx := strL (" by William Shakespeare")
    let fl2 := if sfx.isSuffixOf fl then fl.take (fl.length - sfx.length) else fl
    if fl2 = [] then strL ("Unknown Play") else fl2

/-! ## `parse_dialogues` (shakespeare_repl.py, lines 157-184)

The code tests a stripped line against the union of the two regular
expressions `^[A-Z]{2,}(\s+[A-Z]+)*\s*$` and `^[A-Z]{2,}(\s+[A-Z]+)*\s+`
(`re.match`, so prefix matching).  On an already-stripped line that union
holds exactly when the line begins with two or more consecutive uppercase
letters followed by end of line or by a whitespace character: the leading
`[A-Z]{2,}` must extend to the whole initial uppercase run (a shorter
match leaves an uppercase letter where `\s` or `$` is required), after
which the first regex requires end of line and the second — thanks to the
starred group matching zero times — only a single whitespace character
before an unconstrained tail. -/


/-- Character-name header test on an already stripped line. -/
def isHdrCore (s : List Char) : Bool :=
  2 ≤ (s.takeWhile pyIsUpper).length &&
    (match s.dropWhile pyIsUpper with
     | [] => true
     | c :: _ => pyIsSpace c)

/-- Header test of `parse_dialogues`: both regexes are applied to
`line.strip()`. -/
def isDialogueHeader (l : Line) : Bool := isHdrCore (pyStrip l)

/-- Main loop of `parse_dialogues` over the split lines, carrying the
collected dialogues and the current one. -/
def dlgLoop : List Line → List (List Line) → List Line → List (List Line)
  | [], acc, cur => if cur = [] then acc else acc ++ [cur]
  | l :: ls, acc, cur =>
    if isDialogueHeader l then
      dlgLoop ls (if cur = [] then acc else acc ++ [cur]) [l]
    else
      if cur ≠ [] ∨ pyStrip l ≠ [] then dlgLoop ls acc (cur ++ [l])
      else dlgLoop ls acc cur

/-- Dialogue units as lists of raw lines: the loop of
`ShakespeareReader.parse_dialogues` run on `scene_text.strip().split('\n')`. -/
def parseDialogueUnits (scene_text : List Char) : List (List Line) :=
  dlgLoop (pySplitNl (pyStrip scene_text)) [] []

/-- Embedding of `parse_dialogues`: each unit `'\n'`-joined, as the code
returns it. -/
def parse_dialogues (scene_text : List Char) : List (List Char) :=
  (parseDialogueUnits scene_text).map joinNl

/-! ## `modify_text` (folger_mod_script.py, lines 10-80)

The merge loop runs the index `i` from the last line down to the first,
building the result by `insert(0, ...)`; it is embedded as `modifyRev`,
which takes the lines LAST FIRST and returns the result lines last first
too, so `modify_text` reverses before and after. -/


/-- First character is a lowercase letter (false on the empty line). -/
def startsLower : Line → Bool
  | [] => false
  | c :: _ => pyIsLower c

/-- Inner-loop continuation test of `modify_text` on the raw line:
`lines[i].strip() and lines[i][0].islower()`. -/
def contLine (l : Line) : Bool :=
  !(pyStrip l).isEmpty && startsLower l

/-- Reverse-scan merge loop of `modify_text`.  One step: rstrip the
current line; when it starts lowercase and is not the first line of the
document, collect the immediately preceding run of non-blank
lowercase-starting lines, append the whole group (space-joined) to the
nearest preceding line that does not continue the run, or emit the
space-joined group alone when the run reaches the start of the file. -/
def modifyRev : List Line → List Line
  | [] => []
  | l :: rest =>
    if rest ≠ [] ∧ startsLower (pyRstripNl l) then
      match h : rest.dropWhile contLine with
      | [] =>
        [joinSp (((rest.takeWhile contLine).map pyRstripNl).reverse ++
          [pyRstripNl l])]
      | b :: rest2 =>
        joinSp (pyRstripNl b ::
            (((rest.takeWhile contLine).map pyRstripNl).reverse ++
              [pyRstripNl l])) ::
          modifyRev rest2
    else pyRstripNl l :: modifyRev rest
  termination_by l => l.length
  decreasing_by
  · simp only [List.length_cons]
    have h1 : rest2.length + 1 ≤ rest.length := by
      have h2 : (rest.dropWhile contLine).length ≤ rest.length :=
        List.Sublist.length_le (List.dropWhile_sublist contLine)
      rw [h] at h2
      simpa using h2
    omega
  · simp only [List.length_cons]
    omega

/-- Embedding of `reduce_consecutive_newlines`, i.e.
`re.sub(r'\n{3,}', '\n\n', text)`: `re.sub` replaces each maximal (the
greedy match) run of three or more newline characters by exactly two.
The accumulator counts the pending run of newlines, emitted — clamped to
two when it is three or more — on the next ordinary character or at the
end of the text. -/
def reduceNlAux : Nat → List Char → List Char
  | run, [] => List.replicate (if run ≥ 3 then 2 else run) '\n'
  | run, c :: cs =>
    if c = '\n' then reduceNlAux (run + 1) cs
    else
      List.replicate (if run ≥ 3 then 2 else run) '\n' ++ c :: reduceNlAux 0 cs

/-- Embedding of `reduce_consecutive_newlines`. -/
def reduce_consecutive_newlines (t : List Char) : List Char := reduceNlAux 0 t

/-- Pure core of `modify_text` on the `readlines()` pieces of the input:
the reverse-scan merge, `'\n'`-joined, then the newline reduction. -/
def modify_text (lines : List Line) : List Char :=
  reduce_consecutive_newlines (joinNl ((modifyRev lines.reverse).reverse))

/-- Full normalizer on a file text (the composition the spec calls
`normalize`): read the lines, merge, join, reduce. -/
def normalize (text : List Char) : List Char :=
  modify_text (pyReadlines text)

/-- String-level wrapper of `normalize`. -/
def normalizeStr (s : String) : String := ⟨normalize s.data⟩

/-- Drop one final newline character when the text ends with one. -/
def dropFinalNl (t : List Char) : List Char :=
  if t.getLast? = some '\n' then t.dropLast else t

/-- Does the text contain three consecutive newline characters? -/
def hasTripleNl : List Char → Bool
  | c1 :: c2 :: c3 :: rest =>
    (c1 = '\n' && c2 = '\n' && c3 = '\n') || hasTripleNl (c2 :: c3 :: rest)
  | _ => false

/-- No newline character is immediately followed by a lowercase letter:
the character-level form of "no line other than the first begins with a
lowercase letter". -/
def noLowerAfterNl : List Char → Bool
  | c1 :: c2 :: rest => (!(c1 = '\n') || !(pyIsLower c2)) && noLowerAfterNl (c2 :: rest)
  | _ => true

/-- No newline character occurs in the line. -/
def nlFree (l : List Char) : Bool := l.all (fun c => !(c = '\n'))

/-- Maximal-runs decomposition of a text: alternating maximal runs of
newlines and maximal runs of other characters. -/
def splitRuns : List Char → List (List Char)
  | [] => []
  | c :: cs =>
    if c = '\n' then
      ('\n' :: cs.takeWhile (fun x => x = '\n')) ::
        splitRuns (cs.dropWhile (fun x => x = '\n'))
    else
      (c :: cs.takeWhile (fun x => !(x = '\n'))) ::
        splitRuns (cs.dropWhile (fun x => !(x = '\n')))
  termination_by l => l.length
  decreasing_by
  · simp only [List.length_cons]
    have := List.Sublist.length_le (List.dropWhile_sublist (l := cs) (fun x => x = '\n'))
    omega
  · simp only [List.length_cons]
    have := List.Sublist.length_le (List.dropWhile_sublist (l := cs) (fun x => !(x = '\n')))
    omega

/-- The collapse rule of the amended claim on one maximal run: a run of
three or more newline characters (two or more consecutive blank lines)
becomes exactly two newlines (one blank line); every other run is left
untouched. -/
def clampRun (r : List Char) : List Char :=
  if r.head? = some '\n' ∧ 3 ≤ r.length then ['\n', '\n'] else r

/-- Run-length encoding of the blank-line runs of a line list. -/
def blankRunsAux : Nat → List Line → List Nat
  | k, [] => if k = 0 then [] else [k]
  | k, l :: ls =>
    if l.isEmpty then blankRunsAux (k + 1) ls
    else (if k = 0 then [] else [k]) ++ blankRunsAux 0 ls

/-- Lengths of the maximal runs of blank lines, in order. -/
def blankRuns (ls : List Line) : List Nat := blankRunsAux 0 ls

/-- Two adjacent blank lines somewhere in the line list. -/
def hasTwoAdjacentBlanks : List Line → Bool
  | [] :: [] :: _ => true
  | _ :: rest => hasTwoAdjacentBlanks rest
  | [] => false

/-- Every entry except the LAST in the list starts with something other
than a lowercase letter.  Applied to `modifyRev`'s output, whose order is
reversed, this is "every line except the first line of the document". -/
def noLowerButLast : List Line → Bool
  | e :: r :: rest => !(startsLower e) && noLowerButLast (r :: rest)
  | _ => true

theorem pyToUpper_T : pyToUpper 'T' = 'T' := by decide

theorem pyToUpper_X : pyToUpper 'X' = 'X' := by decide

theorem isPrefixOf_TXT_map_upper (s : List Char) :
    (strL ("TXT")).isPrefixOf (s.map pyToUpper) = ciTxtAt s := by
  apply Bool.eq_iff_iff.mpr
  match s with
  | [] => simp [strL, List.isPrefixOf, ciTxtAt]
  | [c1] => simp [strL, List.isPrefixOf, ciTxtAt]
  | [c1, c2] => simp [strL, List.isPrefixOf, ciTxtAt]
  | c1 :: c2 :: c3 :: rest =>
    simp only [strL, List.isPrefixOf, ciTxtAt, ciEq, pyToUpper_T, pyToUpper_X,
      Bool.and_eq_true, beq_iff_eq, decide_eq_true_eq, and_assoc]
    constructor
    · rintro ⟨h1, h2, h3, -⟩
      exact ⟨h1.symm, h2.symm, h3.symm⟩
    · rintro ⟨h1, h2, h3⟩
      refine ⟨h1.symm, h2.symm, h3.symm, ?_⟩
      simp [List.isPrefixOf]

theorem pyFind_upper_eq_ciFindTxt (s : List Char) :
    pyFind (s.map pyToUpper) (strL ("TXT")) = ciFindTxt s := by
  induction s with
  | nil => rfl
  | cons c cs ih =>
    have h := isPrefixOf_TXT_map_upper (c :: cs)
    simp only [List.map] at h
    simp only [List.map, pyFind, ciFindTxt, h, ih]

/-- C2 (amended).  The output-filename derivation follows the claimed
general rule — first case-insensitive occurrence of "TXT" keeps the part
before it and appends "folger_mod" plus the original extension (default
".txt"), otherwise "_folger_mod" goes before the extension — and
"hamlet_TXT_FolgerShakespeare.txt" maps to "hamlet_folger_mod.txt".  The
claim's second example is corrected: "macbeth.txt" does contain a
case-insensitive "TXT" (inside ".txt"), so it maps to
"macbeth.folger_mod.txt", not "macbeth_folger_mod.txt"; the fallback
branch applies only to names with no "txt" anywhere. -/
theorem get_output_filename_follows_ci_rule :
    (∀ name : List Char, get_output_filename name = outputNameSpec name) ∧
    get_output_filenameS ("hamlet_TXT_FolgerShakespeare.txt") =
      ("hamlet_folger_mod.txt") ∧
    get_output_filenameS ("macbeth.txt") = ("macbeth.folger_mod.txt") := by
  refine ⟨fun name => ?_, by decide, by decide⟩
  unfold get_output_filename outputNameSpec
  rw [pyFind_upper_eq_ciFindTxt]

/-- C2 counterexample.  The claim asserts `"macbeth.txt"` maps to
`"macbeth_folger_mod.txt"`; on the code the first case-insensitive "TXT"
is found inside the ".txt" extension, so the output is
`"macbeth.folger_mod.txt"`. -/
theorem get_output_filename_macbeth_cex :
    get_output_filenameS ("macbeth.txt") ≠ ("macbeth_folger_mod.txt") ∧
    get_output_filenameS ("macbeth.txt") = ("macbeth.folger_mod.txt") := by
  exact ⟨by decide, by decide⟩

theorem playLoop_eq_spec (ls : List Line) : ∀ acc : List ((Nat × Nat) × List Line),
    (∀ a? s? : Option Nat, (a?.isSome && s?.isSome) = false →
      playLoop ls a? s? [] acc = acc ++ sceneBlocksSpec a? ls) ∧
    (∀ (a s : Nat) (c : List Line), playLoop ls (some a) (some s) c acc =
      acc ++ ((a, s), c ++ (ls.takeWhile notHeader).filter (fun x => !isSeparator x)) ::
        sceneBlocksSpec (some a) ls) := by
  induction ls with
  | nil =>
    intro acc
    constructor
    · rintro (_ | a) (_ | s) h <;>
        simp only [playLoop, flushScene, sceneBlocksSpec, List.append_nil] <;> simp at h
    · intro a s c
      simp [playLoop, flushScene, sceneBlocksSpec]
  | cons l ls ih =>
    intro acc
    have hnotHdrAct : ∀ n, parseActHeader l = some n → notHeader l = false := by
      intro n h; simp [notHeader, h]
    have hnotHdrScene : ∀ m, parseSceneHeader l = some m → notHeader l = false := by
      intro m h; simp [notHeader, h]
    rcases hA : parseActHeader l with _ | n
    · rcases hS : parseSceneHeader l with _ | m
      · -- plain content line
        have hHdr : notHeader l = true := by simp [notHeader, hA, hS]
        constructor
        · rintro (_ | a) (_ | s) h
          · simp only [playLoop, hA, hS, Option.isSome_none, Bool.false_and,
              Bool.false_eq_true, if_false]
            rw [(ih acc).1 none none (by simp)]
            simp [sceneBlocksSpec, hA, hS]
          · simp only [playLoop, hA, hS, Option.isSome_none, Bool.false_and,
              Bool.false_eq_true, if_false]
            rw [(ih acc).1 none (some s) (by simp)]
            simp [sceneBlocksSpec, hA, hS]
          · simp only [playLoop, hA, hS, Option.isSome_none, Option.isSome_some,
              Bool.true_and, Bool.and_false, Bool.false_eq_true, if_false]
            rw [(ih acc).1 (some a) none (by simp)]
            simp [sceneBlocksSpec, hA, hS]
          · simp at h
        · intro a s c
          by_cases hSep : isSeparator l = true
          · simp only [playLoop, hA, hS, Option.isSome, Bool.true_and, hSep,
              Bool.not_true, Bool.and_false, if_false]
            rw [(ih acc).2 a s c]
            simp [sceneBlocksSpec, hA, hS, List.takeWhile_cons, hHdr, hSep]
          · simp only [Bool.not_eq_true] at hSep
            simp only [playLoop, hA, hS, Option.isSome, Bool.true_and, hSep,
              Bool.not_false, Bool.and_true, if_true]
            rw [(ih acc).2 a s (c ++ [l])]
            simp [sceneBlocksSpec, hA, hS, List.takeWhile_cons, hHdr, hSep]
      · -- Scene header
        constructor
        · rintro (_ | a) (_ | s) h
          · simp only [playLoop, hA, hS, flushScene]
            rw [(ih acc).1 none (some m) (by simp)]
            simp [sceneBlocksSpec, hA, hS]
          · simp only [playLoop, hA, hS, flushScene]
            rw [(ih acc).1 none (some m) (by simp)]
            simp [sceneBlocksSpec, hA, hS]
          · simp only [playLoop, hA, hS, flushScene]
            rw [(ih acc).2 a m []]
            simp [sceneBlocksSpec, hA, hS]
          · simp at h
        · intro a s c
          simp only [playLoop, hA, hS, flushScene]
          rw [(ih (acc ++ [((a, s), c)])).2 a m []]
          simp [sceneBlocksSpec, hA, hS, List.takeWhile_cons, hnotHdrScene m hS]
    · -- ACT header
      constructor
      · rintro (_ | a) (_ | s) h
        · simp only [playLoop, hA, flushScene]
          rw [(ih acc).1 (some n) none (by simp)]
          simp [sceneBlocksSpec, hA]
        · simp only [playLoop, hA, flushScene]
          rw [(ih acc).1 (some n) none (by simp)]
          simp [sceneBlocksSpec, hA]
        · simp only [playLoop, hA, flushScene]
          rw [(ih acc).1 (some n) none (by simp)]
          simp [sceneBlocksSpec, hA]
        · simp at h
      · intro a s c
        simp only [playLoop, hA, flushScene]
        rw [(ih (acc ++ [((a, s), c)])).1 (some n) none (by simp)]
        simp [sceneBlocksSpec, hA, List.takeWhile_cons, hnotHdrAct n hA]

/-- Main correspondence: the assignments `_parse_play` performs are, in
order, exactly the declared scene blocks described by the spec. -/
theorem parse_play_eq_sceneBlocksSpec (lines : List Line) :
    parse_play lines = sceneBlocksSpec none lines := by
  have h := (playLoop_eq_spec lines []).1 none none (by simp)
  simpa [parse_play] using h

theorem find?_eq_head?_filter {α : Type} (p : α → Bool) (l : List α) :
    l.find? p = (l.filter p).head? := by
  induction l with
  | nil => rfl
  | cons a l ih =>
    cases h : p a with
    | true =>
      rw [List.find?_cons_of_pos _ h, List.filter_cons_of_pos h, List.head?_cons]
    | false =>
      rw [List.find?_cons_of_neg _ (by simp [h]), List.filter_cons_of_neg (by simp [h]), ih]

/-- `dict.get` over the assignment list is the last matching assignment. -/
theorem dictGet_eq_getLast_filter (assigns : List ((Nat × Nat) × List Line))
    (k : Nat × Nat) :
    dictGet assigns k =
      ((assigns.filter (fun e => e.1 == k)).getLast?).map (fun e => e.2) := by
  unfold dictGet
  rw [find?_eq_head?_filter, List.filter_reverse, List.head?_reverse]

/-- C7.  For every document and every `(act, scene)` pair declared by
exactly one `Scene` header, the parser binds that pair to exactly the
lines lying between its header and the next `ACT` or `Scene` header (or
the end of the file), with separator rows excluded — the block computed by
`sceneBlocksSpec`, whose walk also discards lines before any `ACT` header
and lines between an `ACT` header and its first `Scene` header. -/
theorem parse_play_binds_declared_block (lines : List Line) (a s : Nat)
    (B : List Line)
    (h : (sceneBlocksSpec none lines).filter (fun e => e.1 == (a, s)) =
      [((a, s), B)]) :
    dictGet (parse_play lines) (a, s) = some B := by
  rw [parse_play_eq_sceneBlocksSpec, dictGet_eq_getLast_filter, h]
  rfl

/-- Witness for C7 on the §8 example: `(1, 1)` is declared once, with
block `HAMLET / To be.`, and lookup returns exactly that block. -/
theorem parse_play_binds_declared_block_witness :
    (sceneBlocksSpec none exPlay).filter (fun e => e.1 == (1, 1)) =
      [((1, 1), [strL ("HAMLET"), strL ("To be.")])] ∧
    dictGet (parse_play exPlay) (1, 1) =
      some [strL ("HAMLET"), strL ("To be.")] :=
  ⟨by decide, parse_play_binds_declared_block exPlay 1 1 _ (by decide)⟩

/-- C10.  Whatever the document — duplicate `(act, scene)` declarations
included — looking a pair up in the parsed mapping returns the block of
the LAST declaration of that pair in source order; blocks accumulated
under earlier declarations of the same pair are discarded. -/
theorem parse_play_last_declaration_wins (lines : List Line) (p : Nat × Nat) :
    dictGet (parse_play lines) p =
      ((sceneBlocksSpec none lines).filter (fun e => e.1 == p)).getLast?.map
        (fun e => e.2) := by
  rw [parse_play_eq_sceneBlocksSpec, dictGet_eq_getLast_filter]

/-- C9.  Lookup of an `(act, scene)` pair that the parse never assigned
returns `none`.  `get_scene` is a total pure function of the reader, so in
this embedding it can neither raise nor change the reader's state. -/
theorem get_scene_absent_none (t : List Char) (lines : List Line) (a s : Nat)
    (h : (a, s) ∉ (parse_play lines).map Prod.fst) :
    get_scene ⟨t, parse_play lines⟩ a s = none := by
  unfold get_scene dictGet
  have hnone : (parse_play lines).reverse.find? (fun e => e.1 == (a, s)) = none := by
    rw [List.find?_eq_none]
    intro e he
    simp only [beq_iff_eq]
    intro hq
    exact h (List.mem_map.mpr ⟨e, by simpa using he, hq⟩)
  rw [hnone]
  rfl

/-- Witness for C9: on the §8 example play, `(9, 9)` is absent and its
lookup returns `none`. -/
theorem get_scene_absent_none_witness :
    get_scene ⟨strL ("Hamlet"), parse_play exPlay⟩ 9 9 = none :=
  get_scene_absent_none (strL ("Hamlet")) exPlay 9 9 (by decide)

theorem pySplitNl_head (t : List Char) :
    (pySplitNl t).head? = some (t.takeWhile (fun c => c ≠ '\n')) := by
  induction t with
  | nil => rfl
  | cons c cs ih =>
    by_cases h : c = '\n'
    · subst h
      simp [pySplitNl, List.takeWhile_cons]
    · simp only [pySplitNl, if_neg h]
      cases hsp : pySplitNl cs with
      | nil => rw [hsp] at ih; simp at ih
      | cons p ps =>
        rw [hsp] at ih
        simp only [List.head?_cons, Option.some_inj] at ih
        simp [List.takeWhile_cons, h, ih]

/-- C4 (amended).  The title is the FIRST line of the file — not the first
non-empty line — trimmed, with the `" by William Shakespeare"` suffix
stripped when present and `"Unknown Play"` as fallback for an empty
result; and the title (whatever it is) plays no role in scene lookup, so
the cosmetic stripping cannot affect it. -/
theorem get_play_name_first_line_cosmetic (text t2 : List Char) (a s : Nat) :
    get_play_name text = titleAmendedSpec text ∧
    get_scene (mkReader text) a s = get_scene ⟨t2, (mkReader text).scenes⟩ a s := by
  refine ⟨?_, rfl⟩
  unfold get_play_name titleAmendedSpec
  rw [pySplitNl_head]

/-- C4 counterexample.  On a file whose first line is blank the code
returns `"Unknown Play"`, while the claim's "first non-empty line" rule
names the play `"Hamlet"`. -/
theorem get_play_name_first_line_cex :
    titleFirstNonEmptySpec (strL ("\nHamlet\n")) = some (strL ("Hamlet")) ∧
    get_play_name (strL ("\nHamlet\n")) = strL ("Unknown Play") ∧
    strL ("Unknown Play") ≠ strL ("Hamlet") :=
  ⟨by decide, by decide, by decide⟩

theorem isDialogueHeader_not_blank (l : Line) (h : isDialogueHeader l = true) :
    pyStrip l ≠ [] := by
  intro hblank
  rw [isDialogueHeader, hblank] at h
  simp [isHdrCore] at h

theorem dlgLoop_mem_ne_nil (ls : List Line) :
    ∀ (acc : List (List Line)) (cur : List Line),
      (∀ u ∈ acc, u ≠ []) → ∀ u ∈ dlgLoop ls acc cur, u ≠ [] := by
  induction ls with
  | nil =>
    intro acc cur hacc u hu
    by_cases hc : cur = []
    · rw [dlgLoop, if_pos hc] at hu
      exact hacc u hu
    · rw [dlgLoop, if_neg hc] at hu
      rcases List.mem_append.mp hu with h | h
      · exact hacc u h
      · rw [List.mem_singleton.mp h]; exact hc
  | cons l ls ih =>
    intro acc cur hacc u hu
    by_cases hh : isDialogueHeader l = true
    · rw [dlgLoop, if_pos hh] at hu
      refine ih _ [l] ?_ u hu
      intro v hv
      by_cases hc : cur = []
      · rw [if_pos hc] at hv; exact hacc v hv
      · rw [if_neg hc] at hv
        rcases List.mem_append.mp hv with h | h
        · exact hacc v h
        · rw [List.mem_singleton.mp h]; exact hc
    · rw [dlgLoop, if_neg hh] at hu
      by_cases hk : cur ≠ [] ∨ pyStrip l ≠ []
      · rw [if_pos hk] at hu
        exact ih _ _ hacc u hu
      · rw [if_neg hk] at hu
        exact ih _ _ hacc u hu

theorem dlgLoop_join (ls : List Line) :
    ∀ (acc : List (List Line)) (cur : List Line),
      (dlgLoop ls acc cur).flatten = acc.flatten ++ cur ++
        (if cur = [] then ls.dropWhile (fun l => (pyStrip l).isEmpty) else ls) := by
  induction ls with
  | nil =>
    intro acc cur
    by_cases hc : cur = []
    · rw [dlgLoop, if_pos hc, hc]
      simp
    · rw [dlgLoop, if_neg hc, if_neg hc]
      simp
  | cons l ls ih =>
    intro acc cur
    by_cases hh : isDialogueHeader l = true
    · have hlb : ((pyStrip l).isEmpty) = false := by
        simpa using isDialogueHeader_not_blank l hh
      rw [dlgLoop, if_pos hh, ih _ [l]]
      have hacc : (if cur = [] then acc else acc ++ [cur]).flatten =
          acc.flatten ++ cur := by
        by_cases hc : cur = []
        · rw [if_pos hc, hc]; simp
        · rw [if_neg hc]; simp
      rw [hacc]
      by_cases hc : cur = []
      · rw [if_neg (by simp : ¬([l] : List Line) = []), if_pos hc, hc,
          List.dropWhile_cons_of_neg (by simp [hlb])]
        simp
      · rw [if_neg (by simp : ¬([l] : List Line) = []), if_neg hc]
        simp
    · rw [dlgLoop, if_neg hh]
      by_cases hk : cur ≠ [] ∨ pyStrip l ≠ []
      · rw [if_pos hk, ih]
        have hne : ¬(cur ++ [l] = []) := by simp
        rw [if_neg hne]
        by_cases hc : cur = []
        · have hlb : ((pyStrip l).isEmpty) = false := by
            rcases hk with hk | hk
            · exact absurd hc hk
            · simpa using hk
          rw [if_pos hc, hc, List.dropWhile_cons_of_neg (by simp [hlb])]
          simp
        · rw [if_neg hc]
          simp
      · push_neg at hk
        obtain ⟨hc, hlb⟩ := hk
        rw [if_neg (by push_neg; exact ⟨hc, hlb⟩), ih, if_pos hc, if_pos hc, hc,
          List.dropWhile_cons_of_pos (by simp [hlb])]

theorem dropWhile_head_not {α : Type} {p : α → Bool} (l : List α) :
    l.dropWhile p = [] ∨
      ∃ c cs, l.dropWhile p = c :: cs ∧ p c = false := by
  induction l with
  | nil => exact Or.inl rfl
  | cons a l ih =>
    by_cases h : p a = true
    · rw [List.dropWhile_cons_of_pos h]
      exact ih
    · simp only [Bool.not_eq_true] at h
      exact Or.inr ⟨a, l, List.dropWhile_cons_of_neg (by simp [h]), h⟩

theorem dropTrailing_cons_not {p : Char → Bool} (c : Char) (cs : List Char)
    (h : p c = false) :
    dropTrailing p (c :: cs) = c :: dropTrailing p cs := by
  rw [dropTrailing]
  simp [h]

/-- A non-empty stripped line starts with a non-whitespace character. -/
theorem pyStrip_head (l : Line) (h : pyStrip l ≠ []) :
    ∃ c rest, pyStrip l = c :: rest ∧ pyIsSpace c = false := by
  unfold pyStrip at *
  rcases dropWhile_head_not (p := pyIsSpace) l with h0 | ⟨c, cs, hd, hc⟩
  · rw [h0] at h
    exact absurd rfl h
  · rw [hd] at h ⊢
    rw [dropTrailing_cons_not c cs hc] at h ⊢
    exact ⟨c, dropTrailing pyIsSpace cs, rfl, hc⟩

/-- C8.  The dialogue units preserve source order and partition the
scene's non-discarded lines: every unit is non-empty, and the units
flattened in order are exactly the lines of the stripped-and-split scene
with the leading run of blank lines (the only lines the loop discards)
removed.  The code's return value is each unit `'\n'`-joined. -/
theorem parseDialogueUnits_flatten (scene_text : List Char) :
    (parseDialogueUnits scene_text).flatten =
      (pySplitNl (pyStrip scene_text)).dropWhile
        (fun l => (pyStrip l).isEmpty) := by
  rw [parseDialogueUnits, dlgLoop_join]
  simp

theorem parse_dialogues_partition (scene_text : List Char) :
    ((parseDialogueUnits scene_text).all (fun u => !u.isEmpty)) = true ∧
    (parseDialogueUnits scene_text).flatten =
      (pySplitNl (pyStrip scene_text)).dropWhile
        (fun l => (pyStrip l).isEmpty) ∧
    parse_dialogues scene_text = (parseDialogueUnits scene_text).map joinNl := by
  refine ⟨?_, ?_, rfl⟩
  · rw [List.all_eq_true]
    intro u hu
    have := dlgLoop_mem_ne_nil (pySplitNl (pyStrip scene_text)) [] []
      (by intro v hv; simp at hv) u hu
    simpa using this
  · exact parseDialogueUnits_flatten scene_text

/-- C1 (amended).  The segmenter returns an empty sequence exactly when
the scene text strips to nothing (empty or all-whitespace scenes, blank
lines included); a header-less scene with any non-blank content instead
yields a non-empty sequence (a single unit holding all its lines). -/
theorem parse_dialogues_empty_iff_blank (scene_text : List Char) :
    parse_dialogues scene_text = [] ↔ pyStrip scene_text = [] := by
  constructor
  · intro h
    by_contra hne
    have hunits : parseDialogueUnits scene_text = [] := by
      have := congrArg List.length h
      simpa [parse_dialogues] using List.map_eq_nil_iff.mp h
    have hflat := parseDialogueUnits_flatten scene_text
    rw [hunits] at hflat
    obtain ⟨c, rest, hsplit, hc⟩ := pyStrip_head scene_text hne
    have hhead := pySplitNl_head (pyStrip scene_text)
    have hcn : (c = '\n') = False := by
      simp only [eq_iff_iff, iff_false]
      intro hcc
      rw [hcc] at hc
      simp [pyIsSpace] at hc
    obtain ⟨p, ps, hps⟩ :
        ∃ p ps, pySplitNl (pyStrip scene_text) = p :: ps := by
      cases hx : pySplitNl (pyStrip scene_text) with
      | nil => rw [hx] at hhead; simp at hhead
      | cons p ps => exact ⟨p, ps, rfl⟩
    rw [hps] at hhead hflat
    simp only [List.head?_cons, Option.some_inj] at hhead
    have hp : p = c :: (rest.takeWhile (fun x => x ≠ '\n')) := by
      rw [hhead, hsplit, List.takeWhile_cons]
      simp [hcn]
    have hpblank : ((pyStrip p).isEmpty) = false := by
      rw [hp]
      have : pyStrip (c :: rest.takeWhile (fun x => x ≠ '\n')) ≠ [] := by
        unfold pyStrip
        rw [List.dropWhile_cons_of_neg (by simp [hc]),
          dropTrailing_cons_not c _ hc]
        simp
      simpa using this
    rw [List.dropWhile_cons_of_neg (by simp [hpblank])] at hflat
    simp at hflat
  · intro h
    rw [parse_dialogues, parseDialogueUnits, h]
    rfl

/-- C1 counterexample.  The scene `"hello"` contains no character-name
header line, yet the segmenter returns the one-unit sequence
`["hello"]`, not the empty sequence the claim demands. -/
theorem parse_dialogues_headerless_cex :
    ((pySplitNl (pyStrip (strL ("hello")))).all
      (fun l => !isDialogueHeader l)) = true ∧
    parse_dialogues (strL ("hello")) ≠ [] ∧
    parse_dialogues (strL ("hello")) = [strL ("hello")] :=
  ⟨by decide, by decide, by decide⟩

theorem reduceNlAux_nlfree_pre (pre rest : List Char)
    (h : ∀ c ∈ pre, ¬(c = '\n')) :
    reduceNlAux 0 (pre ++ rest) = pre ++ reduceNlAux 0 rest := by
  induction pre with
  | nil => rfl
  | cons c pre ih =>
    have hc : ¬(c = '\n') := h c (by simp)
    simp only [List.cons_append, reduceNlAux, if_neg hc]
    simp [ih (fun x hx => h x (by simp [hx]))]

theorem reduceNlAux_replicate (j : Nat) (rest : List Char)
    (h : ∀ c, rest.head? = some c → ¬(c = '\n')) :
    ∀ run, reduceNlAux run (List.replicate j '\n' ++ rest) =
      List.replicate (if run + j ≥ 3 then 2 else run + j) '\n' ++
        reduceNlAux 0 rest := by
  induction j with
  | zero =>
    intro run
    simp only [List.replicate, List.nil_append, Nat.add_zero]
    cases rest with
    | nil => simp [reduceNlAux]
    | cons c cs =>
      have hc := h c rfl
      simp [reduceNlAux, if_neg hc]
  | succ j ih =>
    intro run
    simp only [List.replicate_succ, List.cons_append, reduceNlAux, if_true,
      List.append_eq]
    rw [ih (run + 1)]
    have harith : run + 1 + j = run + (j + 1) := by omega
    rw [harith]

theorem takeWhile_nl_eq_replicate (cs : List Char) :
    cs.takeWhile (fun x => x = '\n') =
      List.replicate (cs.takeWhile (fun x => x = '\n')).length '\n' := by
  rw [List.eq_replicate_iff]
  refine ⟨rfl, fun b hb => ?_⟩
  simpa using List.mem_takeWhile_imp hb

/-- C3 (amended).  `reduce_consecutive_newlines` — the newline collapse
`modify_text` applies to the merged text — replaces each maximal run of
THREE OR MORE newline characters (that is, each run of TWO or more
consecutive blank lines) by exactly two newlines (one blank line), and
leaves every run of at most two newlines (at most one blank line)
untouched: it equals the per-run clamp `clampRun` mapped over the
maximal-runs decomposition. -/
theorem reduce_consecutive_newlines_collapses_runs :
    (∀ t : List Char,
      reduce_consecutive_newlines t = ((splitRuns t).map clampRun).flatten) ∧
    (∀ lines : List Line, modify_text lines =
      ((splitRuns (joinNl ((modifyRev lines.reverse).reverse))).map
        clampRun).flatten) := by
  have H : ∀ (n : Nat) (t : List Char), t.length ≤ n →
      reduceNlAux 0 t = ((splitRuns t).map clampRun).flatten := by
    intro n
    induction n with
    | zero =>
      intro t ht
      have : t = [] := List.length_eq_zero.mp (Nat.le_antisymm ht (Nat.zero_le _))
      subst this
      simp [reduceNlAux, splitRuns]
    | succ n ih =>
      intro t ht
      match t with
      | [] => simp [reduceNlAux, splitRuns]
      | c :: cs =>
        rw [List.length_cons] at ht
        by_cases hc : c = '\n'
        · subst hc
          have hrepl : ('\n' : Char) :: cs.takeWhile (fun x => x = '\n') =
              List.replicate ((cs.takeWhile (fun x => x = '\n')).length + 1) '\n' := by
            rw [List.replicate_succ]
            exact congrArg (fun w => '\n' :: w) (takeWhile_nl_eq_replicate cs)
          have hsplit : ('\n' : Char) :: cs =
              List.replicate ((cs.takeWhile (fun x => x = '\n')).length + 1) '\n' ++
                cs.dropWhile (fun x => x = '\n') := by
            rw [← hrepl]
            simp
          have hhead : ∀ c', (cs.dropWhile (fun x => x = '\n')).head? = some c' →
              ¬(c' = '\n') := by
            intro c' hc'
            rcases dropWhile_head_not (p := fun x => x = '\n') cs with h0 | ⟨d, ds, hd, hdp⟩
            · rw [h0] at hc'; simp at hc'
            · rw [hd] at hc'
              simp only [List.head?_cons, Option.some_inj] at hc'
              subst hc'
              simpa using hdp
          have hlen : (cs.dropWhile (fun x => x = '\n')).length ≤ n := by
            have := List.Sublist.length_le (List.dropWhile_sublist
              (l := cs) (fun x => x = '\n'))
            omega
          have hL : reduceNlAux 0 ('\n' :: cs) =
              List.replicate (if (cs.takeWhile (fun x => x = '\n')).length + 1 ≥ 3
                then 2 else (cs.takeWhile (fun x => x = '\n')).length + 1) '\n' ++
                ((splitRuns (cs.dropWhile (fun x => x = '\n'))).map clampRun).flatten := by
            conv_lhs => rw [hsplit]
            rw [reduceNlAux_replicate _ _ hhead 0, ih _ hlen]
            simp only [Nat.zero_add]
          have hR : splitRuns ('\n' :: cs) =
              ('\n' :: cs.takeWhile (fun x => x = '\n')) ::
                splitRuns (cs.dropWhile (fun x => x = '\n')) := by
            rw [splitRuns]
            simp
          rw [hL, hR, List.map_cons, List.flatten_cons]
          congr 1
          rw [clampRun]
          by_cases h3 : 3 ≤ (cs.takeWhile (fun x => x = '\n')).length + 1
          · have hcond : ('\n' :: cs.takeWhile (fun x => x = '\n')).head? =
                some '\n' ∧
                3 ≤ ('\n' :: cs.takeWhile (fun x => x = '\n')).length := by
              refine ⟨rfl, ?_⟩
              rw [List.length_cons]
              omega
            rw [if_pos hcond, if_pos h3]
            rfl
          · have hcond : ¬(('\n' :: cs.takeWhile (fun x => x = '\n')).head? =
                some '\n' ∧
                3 ≤ ('\n' :: cs.takeWhile (fun x => x = '\n')).length) := by
              rintro ⟨-, hlen3⟩
              rw [List.length_cons] at hlen3
              exact h3 hlen3
            rw [if_neg hcond, if_neg h3, hrepl]
        · have hpre : ∀ x ∈ c :: cs.takeWhile (fun y => !(y = '\n')), ¬(x = '\n') := by
            intro x hx
            rcases List.mem_cons.mp hx with h | h
            · subst h; exact hc
            · simpa using List.mem_takeWhile_imp h
          have hsplit : c :: cs =
              (c :: cs.takeWhile (fun y => !(y = '\n'))) ++
                cs.dropWhile (fun y => !(y = '\n')) := by
            simp
          have hlen : (cs.dropWhile (fun y => !(y = '\n'))).length ≤ n := by
            have := List.Sublist.length_le (List.dropWhile_sublist
              (l := cs) (fun y => !(y = '\n')))
            omega
          have hL : reduceNlAux 0 (c :: cs) =
              (c :: cs.takeWhile (fun y => !(y = '\n'))) ++
                ((splitRuns (cs.dropWhile (fun y => !(y = '\n')))).map
                  clampRun).flatten := by
            conv_lhs => rw [hsplit]
            rw [reduceNlAux_nlfree_pre _ _ hpre, ih _ hlen]
          have hR : splitRuns (c :: cs) =
              (c :: cs.takeWhile (fun y => !(y = '\n'))) ::
                splitRuns (cs.dropWhile (fun y => !(y = '\n'))) := by
            rw [splitRuns]
            simp [hc]
          rw [hL, hR, List.map_cons, List.flatten_cons]
          congr 1
          rw [clampRun, if_neg (by
            rintro ⟨hhd, -⟩
            simp only [List.head?_cons, Option.some_inj] at hhd
            exact hc hhd)]
  exact ⟨fun t => H t.length t le_rfl,
    fun lines => H _ _ le_rfl⟩

theorem modifyRev_nil : modifyRev [] = [] := by
  rw [modifyRev.eq_def]

theorem modifyRev_cons_pass (l : Line) (rest : List Line)
    (h : ¬(rest ≠ [] ∧ startsLower (pyRstripNl l) = true)) :
    modifyRev (l :: rest) = pyRstripNl l :: modifyRev rest := by
  rw [modifyRev.eq_def]
  simp only []
  rw [if_neg h]

theorem startsLower_pyRstripNl (l : Line) (h : startsLower l = false) :
    startsLower (pyRstripNl l) = false := by
  cases l with
  | nil => rfl
  | cons c cs =>
    simp only [pyRstripNl, dropTrailing]
    split
    · rfl
    · simpa [startsLower] using h

/-- When no line other than (possibly) the first starts with a lowercase
letter, the merge loop merges nothing: every line passes through,
rstripped of its trailing newline.  (`rs` is the reversed line list, so
"the first line of the document" is the LAST entry of `rs`.) -/
theorem modifyRev_no_merge (rs : List Line)
    (h : ∀ p ∈ rs.dropLast, startsLower p = false) :
    modifyRev rs = rs.map pyRstripNl := by
  induction rs with
  | nil => exact modifyRev_nil
  | cons l rest ih =>
    cases rest with
    | nil =>
      rw [modifyRev_cons_pass l [] (by simp), modifyRev_nil]
      rfl
    | cons r rest2 =>
      have hl : startsLower l = false := h l (by simp [List.dropLast])
      rw [modifyRev_cons_pass l (r :: rest2) (by
        rintro ⟨-, hlow⟩
        rw [startsLower_pyRstripNl l hl] at hlow
        exact Bool.false_ne_true hlow)]
      rw [ih (by
        intro p hp
        refine h p ?_
        simp only [List.dropLast] at hp ⊢
        exact List.mem_cons_of_mem l hp)]
      rfl

/-- C3 counterexample.  The document `A / blank / blank / B` has one run
of exactly TWO consecutive blank lines; the claim says runs of two or
fewer are left untouched, but the code (two blank lines = three newline
characters, matched by `\n{3,}`) collapses it to a single blank line. -/
theorem normalize_two_blank_lines_cex :
    blankRuns (pySplitNl (strL ("A\n\n\nB"))) = [2] ∧
    normalize (strL ("A\n\n\nB")) = strL ("A\n\nB") ∧
    blankRuns (pySplitNl (normalize (strL ("A\n\n\nB")))) = [1] := by
  have hmerge : modifyRev ((pyReadlines (strL ("A\n\n\nB"))).reverse) =
      ((pyReadlines (strL ("A\n\n\nB"))).reverse).map pyRstripNl :=
    modifyRev_no_merge _ (by decide)
  have hval : normalize (strL ("A\n\n\nB")) = strL ("A\n\nB") := by
    unfold normalize modify_text
    rw [hmerge]
    decide
  exact ⟨by decide, hval, by rw [hval]; decide⟩

/-- C6 counterexample.  Normalizing `A / blank / blank / blank` leaves
`A / blank / blank` — the trailing pair of blank lines is only two
newline characters, which `\n{3,}` does not match — so the output
contains a run of TWO blank lines, violating the claimed invariant. -/
theorem normalize_trailing_blank_run_cex :
    normalize (strL ("A\n\n\n")) = strL ("A\n\n") ∧
    hasTwoAdjacentBlanks (pySplitNl (normalize (strL ("A\n\n\n")))) = true := by
  have hmerge : modifyRev ((pyReadlines (strL ("A\n\n\n"))).reverse) =
      ((pyReadlines (strL ("A\n\n\n"))).reverse).map pyRstripNl :=
    modifyRev_no_merge _ (by decide)
  have hval : normalize (strL ("A\n\n\n")) = strL ("A\n\n") := by
    unfold normalize modify_text
    rw [hmerge]
    decide
  exact ⟨hval, by rw [hval]; decide⟩

/-- C5 counterexample.  For the document `A / blank` the normalizer
returns `"A\n"`, but normalizing again returns `"A"`: `readlines` sees
one line fewer in `"A\n"` than `'\n'.join` produced, so idempotence fails
on any document with a trailing blank line. -/
theorem normalize_not_idempotent_cex :
    normalize (normalize (strL ("A\n\n"))) ≠ normalize (strL ("A\n\n")) := by
  have hmerge1 : modifyRev ((pyReadlines (strL ("A\n\n"))).reverse) =
      ((pyReadlines (strL ("A\n\n"))).reverse).map pyRstripNl :=
    modifyRev_no_merge _ (by decide)
  have h1 : normalize (strL ("A\n\n")) = strL ("A\n") := by
    unfold normalize modify_text
    rw [hmerge1]
    decide
  have hmerge2 : modifyRev ((pyReadlines (strL ("A\n"))).reverse) =
      ((pyReadlines (strL ("A\n"))).reverse).map pyRstripNl :=
    modifyRev_no_merge _ (by decide)
  have h2 : normalize (strL ("A\n")) = strL ("A") := by
    unfold normalize modify_text
    rw [hmerge2]
    decide
  rw [h1, h2]
  decide

theorem noLowerAfterNl_tail (c : Char) (cs : List Char)
    (h : noLowerAfterNl (c :: cs) = true) : noLowerAfterNl cs = true := by
  cases cs with
  | nil => rfl
  | cons c2 rest =>
    simp only [noLowerAfterNl, Bool.and_eq_true] at h
    exact h.2

theorem noLowerAfterNl_head_after_nl (cs : List Char)
    (h : noLowerAfterNl ('\n' :: cs) = true) :
    ∀ c, cs.head? = some c → pyIsLower c = false := by
  intro c hc
  cases cs with
  | nil => simp at hc
  | cons c2 rest =>
    simp only [List.head?_cons, Option.some_inj] at hc
    subst hc
    simp only [noLowerAfterNl, Bool.and_eq_true] at h
    simpa using h.1

theorem noLowerAfterNl_of_nlFree (l : List Char) (h : nlFree l = true) :
    noLowerAfterNl l = true := by
  induction l with
  | nil => rfl
  | cons c cs ih =>
    have hc : ¬(c = '\n') := by
      have := (List.all_eq_true.mp h) c (by simp)
      simpa using this
    have hcs : nlFree cs = true := by
      simp only [nlFree, List.all_cons, Bool.and_eq_true] at h
      exact h.2
    cases cs with
    | nil => rfl
    | cons c2 rest =>
      simp only [noLowerAfterNl, Bool.and_eq_true]
      exact ⟨by simp [hc], ih hcs⟩

theorem noLowerAfterNl_append (a w : List Char) (ha : nlFree a = true)
    (hw : noLowerAfterNl w = true) : noLowerAfterNl (a ++ w) = true := by
  induction a with
  | nil => simpa
  | cons c a ih =>
    have hc : ¬(c = '\n') := by
      have := (List.all_eq_true.mp ha) c (by simp)
      simpa using this
    have ha' : nlFree a = true := by
      simp only [nlFree, List.all_cons, Bool.and_eq_true] at ha
      exact ha.2
    have hrec := ih ha'
    rw [List.cons_append]
    cases hx : a ++ w with
    | nil => rfl
    | cons d ds =>
      rw [noLowerAfterNl, ← hx]
      simp [hc, hrec]

theorem noLowerAfterNl_cons_nl (w : List Char) (hw : noLowerAfterNl w = true)
    (hh : ∀ c, w.head? = some c → pyIsLower c = false) :
    noLowerAfterNl ('\n' :: w) = true := by
  cases w with
  | nil => rfl
  | cons c2 rest =>
    simp only [noLowerAfterNl, Bool.and_eq_true]
    exact ⟨by simp [hh c2 rfl], hw⟩

theorem hasTripleNl_cons_ne (c : Char) (w : List Char) (hc : ¬(c = '\n')) :
    hasTripleNl (c :: w) = hasTripleNl w := by
  cases w with
  | nil => rfl
  | cons d ds =>
    cases ds with
    | nil => rfl
    | cons e es =>
      simp only [hasTripleNl]
      simp [hc]

theorem hasTripleNl_cons (c : Char) (v : List Char) (hv : hasTripleNl v = true) :
    hasTripleNl (c :: v) = true := by
  cases v with
  | nil => simp [hasTripleNl] at hv
  | cons v0 vs =>
    cases vs with
    | nil => simp [hasTripleNl] at hv
    | cons v1 vs2 =>
      simp only [hasTripleNl, Bool.or_eq_true]
      exact Or.inr hv

theorem hasTripleNl_mono (a w : List Char) (hw : hasTripleNl w = true) :
    hasTripleNl (a ++ w) = true := by
  induction a with
  | nil => simpa
  | cons c a ih => exact hasTripleNl_cons c _ ih

theorem replicate_nl_triple (k : Nat) (w : List Char) (h3 : 3 ≤ k) :
    hasTripleNl (List.replicate k '\n' ++ w) = true := by
  obtain ⟨m, rfl⟩ : ∃ m, k = m + 3 := ⟨k - 3, by omega⟩
  rw [show m + 3 = 3 + m from by omega, List.replicate_add, List.append_assoc]
  simp [List.replicate_succ, hasTripleNl]

theorem no_triple_nl_cons_cons (c : Char) (hc : ¬(c = '\n')) (v : List Char)
    (hv : hasTripleNl v = false) :
    hasTripleNl ('\n' :: c :: v) = false := by
  cases v with
  | nil => rfl
  | cons v0 vs =>
    rw [hasTripleNl, hasTripleNl_cons_ne c _ hc, hv]
    simp [hc]

theorem no_triple_replicate_cons (j : Nat) (hj : j ≤ 2) (c : Char)
    (hc : ¬(c = '\n')) (v : List Char) (hv : hasTripleNl v = false) :
    hasTripleNl (List.replicate j '\n' ++ c :: v) = false := by
  have hcv : hasTripleNl (c :: v) = false := by
    rw [hasTripleNl_cons_ne c v hc]
    exact hv
  have h1 : hasTripleNl ('\n' :: c :: v) = false := no_triple_nl_cons_cons c hc v hv
  have hj' : j = 0 ∨ j = 1 ∨ j = 2 := by omega
  rcases hj' with rfl | rfl | rfl
  · simpa using hcv
  · simpa using h1
  · show hasTripleNl ('\n' :: '\n' :: c :: v) = false
    rw [hasTripleNl, h1]
    simp [hc]

theorem reduceNlAux_no_triple (t : List Char) : ∀ run,
    hasTripleNl (reduceNlAux run t) = false := by
  induction t with
  | nil =>
    intro run
    rw [reduceNlAux]
    by_cases h : run ≥ 3
    · rw [if_pos h]
      rfl
    · rw [if_neg h]
      have : run = 0 ∨ run = 1 ∨ run = 2 := by omega
      rcases this with rfl | rfl | rfl <;> rfl
  | cons c cs ih =>
    intro run
    rw [reduceNlAux]
    by_cases hc : c = '\n'
    · rw [if_pos hc]
      exact ih (run + 1)
    · rw [if_neg hc]
      refine no_triple_replicate_cons _ ?_ c hc _ (ih 0)
      split <;> omega

theorem reduceNlAux_id (t : List Char) : ∀ run,
    hasTripleNl (List.replicate run '\n' ++ t) = false →
    reduceNlAux run t = List.replicate run '\n' ++ t := by
  induction t with
  | nil =>
    intro run h
    rw [reduceNlAux]
    have hr : ¬(run ≥ 3) := by
      intro h3
      have htr := replicate_nl_triple run [] h3
      rw [htr] at h
      cases h
    rw [if_neg hr]
    simp
  | cons c cs ih =>
    intro run h
    rw [reduceNlAux]
    by_cases hc : c = '\n'
    · rw [if_pos hc]
      subst hc
      have hsh : List.replicate run '\n' ++ '\n' :: cs =
          List.replicate (run + 1) '\n' ++ cs := by
        rw [List.replicate_succ']
        simp
      rw [ih (run + 1) (by rw [← hsh]; exact h), ← hsh]
    · rw [if_neg hc]
      have hr : ¬(run ≥ 3) := by
        intro h3
        have htr := replicate_nl_triple run (c :: cs) h3
        rw [htr] at h
        cases h
      rw [if_neg hr]
      have hcv : hasTripleNl (c :: cs) = false := by
        by_contra hcon
        rw [Bool.not_eq_false] at hcon
        have := hasTripleNl_mono (List.replicate run '\n') _ hcon
        rw [this] at h
        cases h
      have hcs : hasTripleNl cs = false := by
        rw [hasTripleNl_cons_ne c cs hc] at hcv
        exact hcv
      rw [ih 0 (by simpa using hcs)]
      simp

theorem noLower_replicate_append (k : Nat) (v : List Char)
    (hv : noLowerAfterNl v = true)
    (hh : 1 ≤ k → ∀ c, v.head? = some c → pyIsLower c = false) :
    noLowerAfterNl (List.replicate k '\n' ++ v) = true := by
  induction k with
  | zero => simpa
  | succ k ih =>
    rw [List.replicate_succ, List.cons_append]
    apply noLowerAfterNl_cons_nl
    · exact ih (fun h1 c hc => hh (by omega) c hc)
    · intro c hc
      cases k with
      | zero => exact hh (by omega) c (by simpa using hc)
      | succ k2 =>
        rw [List.replicate_succ, List.cons_append] at hc
        simp only [List.head?_cons, Option.some_inj] at hc
        subst hc
        decide

theorem reduceNlAux_noLower (t : List Char) : ∀ run,
    noLowerAfterNl t = true →
    (1 ≤ run → ∀ c, t.head? = some c → pyIsLower c = false) →
    noLowerAfterNl (reduceNlAux run t) = true := by
  induction t with
  | nil =>
    intro run h hh
    rw [reduceNlAux, ← List.append_nil (List.replicate (if run ≥ 3 then 2 else run) '\n')]
    exact noLower_replicate_append _ [] rfl (fun _ c hc => by simp at hc)
  | cons c cs ih =>
    intro run h hh
    rw [reduceNlAux]
    by_cases hc : c = '\n'
    · rw [if_pos hc]
      apply ih (run + 1) (noLowerAfterNl_tail c cs h)
      intro _ c2 hc2
      subst hc
      exact noLowerAfterNl_head_after_nl cs h c2 hc2
    · rw [if_neg hc]
      apply noLower_replicate_append
      · have hrec := ih 0 (noLowerAfterNl_tail c cs h) (fun h1 => absurd h1 (by omega))
        cases hw : reduceNlAux 0 cs with
        | nil => rfl
        | cons d ds =>
          rw [noLowerAfterNl, ← hw]
          simp [hc, hrec]
      · intro hk c2 hc2
        simp only [List.head?_cons, Option.some_inj] at hc2
        subst hc2
        have hrun : 1 ≤ run := by
          rcases Nat.eq_zero_or_pos run with h0 | h1
          · subst h0
            norm_num at hk
          · exact h1
        exact hh hrun c rfl

theorem joinNl_cons_cons (x y : List Char) (rest : List (List Char)) :
    joinNl (x :: y :: rest) = x ++ '\n' :: joinNl (y :: rest) := rfl

theorem joinNl_cons_head (c : Char) (x : List Char) (rest : List (List Char)) :
    joinNl ((c :: x) :: rest) = c :: joinNl (x :: rest) := by
  cases rest with
  | nil => rfl
  | cons y ys => rfl

theorem joinSp_cons_cons (x y : List Char) (rest : List (List Char)) :
    joinSp (x :: y :: rest) = x ++ ' ' :: joinSp (y :: rest) := rfl

theorem joinNl_head (r : List Char) (rest : List (List Char)) :
    ∀ c, (joinNl (r :: rest)).head? = some c → r.head? = some c ∨ c = '\n' := by
  intro c hc
  cases rest with
  | nil => exact Or.inl hc
  | cons y ys =>
    rw [joinNl_cons_cons] at hc
    cases r with
    | nil =>
      simp only [List.nil_append, List.head?_cons, Option.some_inj] at hc
      exact Or.inr hc.symm
    | cons a as =>
      simp only [List.cons_append, List.head?_cons, Option.some_inj] at hc
      subst hc
      exact Or.inl rfl

theorem joinNl_noLower (entries : List (List Char))
    (hfree : ∀ e ∈ entries, nlFree e = true)
    (htail : ∀ e ∈ entries.tail, startsLower e = false) :
    noLowerAfterNl (joinNl entries) = true := by
  induction entries with
  | nil => rfl
  | cons e rest ih =>
    cases rest with
    | nil => exact noLowerAfterNl_of_nlFree e (hfree e (by simp))
    | cons r rs =>
      rw [joinNl_cons_cons]
      apply noLowerAfterNl_append _ _ (hfree e (by simp))
      apply noLowerAfterNl_cons_nl
      · apply ih
        · intro z hz
          exact hfree z (List.mem_cons_of_mem e hz)
        · intro z hz
          exact htail z (List.mem_cons_of_mem r hz)
      · intro c hc
        rcases joinNl_head r rs c hc with h | h
        · have hr : startsLower r = false := htail r (by simp)
          cases r with
          | nil => simp at h
          | cons a as =>
            simp only [List.head?_cons, Option.some_inj] at h
            subst h
            simpa [startsLower] using hr
        · subst h
          decide

theorem startsLower_joinSp (x : List Char) (rest : List (List Char))
    (hx : startsLower x = false) :
    startsLower (joinSp (x :: rest)) = false := by
  cases rest with
  | nil => exact hx
  | cons y ys =>
    rw [joinSp_cons_cons]
    cases x with
    | nil =>
      rw [List.nil_append]
      show pyIsLower ' ' = false
      decide
    | cons a as =>
      rw [List.cons_append]
      simpa [startsLower] using hx

theorem joinSp_nlFree (xs : List (List Char)) (h : ∀ x ∈ xs, nlFree x = true) :
    nlFree (joinSp xs) = true := by
  induction xs with
  | nil => rfl
  | cons x rest ih =>
    cases rest with
    | nil => exact h x (by simp)
    | cons y ys =>
      rw [joinSp_cons_cons, nlFree, List.all_append, List.all_cons]
      have h1 : x.all (fun c => !(c = '\n')) = true := h x (by simp)
      have h2 : nlFree (joinSp (y :: ys)) = true :=
        ih (fun z hz => h z (List.mem_cons_of_mem x hz))
      rw [nlFree] at h2
      simp [h1, h2]

theorem pyStrip_nil_all_space (l : Line) (h : pyStrip l = []) :
    ∀ c ∈ l, pyIsSpace c = true := by
  induction l with
  | nil => intro c hc; simp at hc
  | cons c cs ih =>
    intro d hd
    by_cases hsp : pyIsSpace c = true
    · rcases List.mem_cons.mp hd with rfl | hdm
      · exact hsp
      · refine ih ?_ d hdm
        rw [pyStrip] at h ⊢
        rw [List.dropWhile_cons_of_pos hsp] at h
        exact h
    · exfalso
      rw [pyStrip, List.dropWhile_cons_of_neg (by simpa using hsp)] at h
      simp only [dropTrailing] at h
      simp [hsp] at h

theorem space_not_lower (c : Char) (h : pyIsSpace c = true) :
    pyIsLower c = false := by
  rw [pyIsSpace] at h
  simp only [Bool.or_eq_true, decide_eq_true_eq] at h
  rcases h with ((((h | h) | h) | h) | h) | h <;> subst h <;> decide

theorem mem_dropTrailing (p : Char → Bool) (l : List Char) :
    ∀ c ∈ dropTrailing p l, c ∈ l := by
  induction l with
  | nil => intro c hc; simp [dropTrailing] at hc
  | cons a as ih =>
    intro c hc
    simp only [dropTrailing] at hc
    split at hc
    · simp at hc
    · rcases List.mem_cons.mp hc with rfl | hm
      · exact List.mem_cons_self c as
      · exact List.mem_cons_of_mem a (ih c hm)

theorem startsLower_rstrip_of_not_cont (b : Line) (h : contLine b = false) :
    startsLower (pyRstripNl b) = false := by
  by_cases hsl : startsLower b = true
  · have hsp : pyStrip b = [] := by
      rw [contLine, hsl] at h
      simp only [Bool.and_true, Bool.not_eq_true'] at h
      simpa using h
    cases hr : pyRstripNl b with
    | nil => rfl
    | cons c cs =>
      have hcb : c ∈ b := by
        apply mem_dropTrailing _ b
        rw [show dropTrailing (fun c => c = '\n') b = pyRstripNl b from rfl, hr]
        simp
      have hspace := pyStrip_nil_all_space b hsp c hcb
      simp [startsLower, space_not_lower c hspace]
  · exact startsLower_pyRstripNl b (by simpa using hsl)

theorem modifyRev_cons_merge_nobase (l : Line) (rest : List Line)
    (hcond : rest ≠ [] ∧ startsLower (pyRstripNl l) = true)
    (hdrop : rest.dropWhile contLine = []) :
    modifyRev (l :: rest) =
      [joinSp (((rest.takeWhile contLine).map pyRstripNl).reverse ++
        [pyRstripNl l])] := by
  rw [modifyRev.eq_def]
  simp only []
  rw [if_pos hcond]
  split
  · rfl
  · rename_i b rest2 heq
    rw [heq] at hdrop
    cases hdrop

theorem modifyRev_cons_merge_base (l : Line) (rest : List Line) (b : Line)
    (rest2 : List Line)
    (hcond : rest ≠ [] ∧ startsLower (pyRstripNl l) = true)
    (hdrop : rest.dropWhile contLine = b :: rest2) :
    modifyRev (l :: rest) =
      joinSp (pyRstripNl b :: (((rest.takeWhile contLine).map pyRstripNl).reverse ++
        [pyRstripNl l])) :: modifyRev rest2 := by
  rw [modifyRev.eq_def]
  simp only []
  rw [if_pos hcond]
  split
  · rename_i heq
    rw [heq] at hdrop
    cases hdrop
  · rename_i b' rest2' heq
    rw [heq] at hdrop
    injection hdrop with h1 h2
    subst h1
    subst h2
    rfl

theorem modifyRev_ne_nil (l : Line) (rest : List Line) :
    modifyRev (l :: rest) ≠ [] := by
  by_cases hcond : rest ≠ [] ∧ startsLower (pyRstripNl l) = true
  · cases hdrop : rest.dropWhile contLine with
    | nil => rw [modifyRev_cons_merge_nobase l rest hcond hdrop]; simp
    | cons b rest2 => rw [modifyRev_cons_merge_base l rest b rest2 hcond hdrop]; simp
  · rw [modifyRev_cons_pass l rest hcond]; simp

theorem modifyRev_noLowerButLast (rs : List Line) :
    noLowerButLast (modifyRev rs) = true := by
  induction rs using modifyRev.induct with
  | case1 => rw [modifyRev_nil]; rfl
  | case2 l rest hcond hdrop =>
    rw [modifyRev_cons_merge_nobase l rest hcond hdrop]
    rfl
  | case3 l rest hcond b rest2 hdrop ih =>
    rw [modifyRev_cons_merge_base l rest b rest2 hcond hdrop]
    have hb : contLine b = false := by
      rcases dropWhile_head_not (p := contLine) rest with h0 | ⟨d, ds, hd, hdp⟩
      · rw [h0] at hdrop; cases hdrop
      · rw [hd] at hdrop
        injection hdrop with h1 h2
        subst h1
        exact hdp
    have hlow : startsLower (joinSp (pyRstripNl b ::
        (((rest.takeWhile contLine).map pyRstripNl).reverse ++
          [pyRstripNl l]))) = false :=
      startsLower_joinSp _ _ (startsLower_rstrip_of_not_cont b hb)
    cases hmr : modifyRev rest2 with
    | nil => rfl
    | cons m ms =>
      have hunf : noLowerButLast (joinSp (pyRstripNl b ::
          (((rest.takeWhile contLine).map pyRstripNl).reverse ++
            [pyRstripNl l])) :: m :: ms) =
          (!(startsLower (joinSp (pyRstripNl b ::
            (((rest.takeWhile contLine).map pyRstripNl).reverse ++
              [pyRstripNl l])))) && noLowerButLast (m :: ms)) := rfl
      rw [hunf, ← hmr, hlow, ih]
      rfl
  | case4 l rest hcond ih =>
    rw [modifyRev_cons_pass l rest hcond]
    cases hmr : modifyRev rest with
    | nil => rfl
    | cons m ms =>
      have hrestne : rest ≠ [] := by
        intro h0
        rw [h0, modifyRev_nil] at hmr
        cases hmr
      have hlow : startsLower (pyRstripNl l) = false := by
        rcases not_and_or.mp hcond with h | h
        · exact absurd hrestne (by simpa using h)
        · simpa using h
      have hunf : noLowerButLast (pyRstripNl l :: m :: ms) =
          (!(startsLower (pyRstripNl l)) && noLowerButLast (m :: ms)) := rfl
      rw [hunf, ← hmr, hlow, ih]
      rfl

theorem modifyRev_nlFree (rs : List Line) :
    (∀ p ∈ rs, nlFree (pyRstripNl p) = true) →
    ∀ e ∈ modifyRev rs, nlFree e = true := by
  induction rs using modifyRev.induct with
  | case1 =>
    intro _ e he
    rw [modifyRev_nil] at he
    simp at he
  | case2 l rest hcond hdrop =>
    intro h e he
    rw [modifyRev_cons_merge_nobase l rest hcond hdrop] at he
    rw [List.mem_singleton] at he
    subst he
    apply joinSp_nlFree
    intro z hz
    rcases List.mem_append.mp hz with hz | hz
    · rw [List.mem_reverse] at hz
      obtain ⟨p, hp, rfl⟩ := List.mem_map.mp hz
      exact h p (List.mem_cons_of_mem l
        ((List.takeWhile_sublist contLine).subset hp))
    · rw [List.mem_singleton] at hz
      subst hz
      exact h l (List.mem_cons_self l rest)
  | case3 l rest hcond b rest2 hdrop ih =>
    intro h e he
    rw [modifyRev_cons_merge_base l rest b rest2 hcond hdrop] at he
    have hsub : b :: rest2 = rest.dropWhile contLine := hdrop.symm
    have hbmem : b ∈ rest := by
      apply (List.dropWhile_sublist contLine).subset
      rw [hdrop]
      simp
    rcases List.mem_cons.mp he with rfl | he2
    · apply joinSp_nlFree
      intro z hz
      rcases List.mem_cons.mp hz with rfl | hz2
      · exact h b (List.mem_cons_of_mem l hbmem)
      · rcases List.mem_append.mp hz2 with hz3 | hz3
        · rw [List.mem_reverse] at hz3
          obtain ⟨p, hp, rfl⟩ := List.mem_map.mp hz3
          exact h p (List.mem_cons_of_mem l
            ((List.takeWhile_sublist contLine).subset hp))
        · rw [List.mem_singleton] at hz3
          subst hz3
          exact h l (List.mem_cons_self l rest)
    · refine ih ?_ e he2
      intro p hp
      have hpmem : p ∈ rest := by
        apply (List.dropWhile_sublist contLine).subset
        rw [hdrop]
        exact List.mem_cons_of_mem b hp
      exact h p (List.mem_cons_of_mem l hpmem)
  | case4 l rest hcond ih =>
    intro h e he
    rw [modifyRev_cons_pass l rest hcond] at he
    rcases List.mem_cons.mp he with rfl | he2
    · exact h l (List.mem_cons_self l rest)
    · exact ih (fun p hp => h p (List.mem_cons_of_mem l hp)) e he2

theorem readlines_nonempty (c : Char) (cs : List Char) :
    pyReadlines (c :: cs) ≠ [] := by
  rw [pyReadlines]
  by_cases hc : c = '\n'
  · rw [if_pos hc]
    simp
  · rw [if_neg hc]
    cases pyReadlines cs <;> simp

theorem readlines_nil_iff (x : List Char) : pyReadlines x = [] ↔ x = [] := by
  cases x with
  | nil => simp [pyReadlines]
  | cons c cs =>
    constructor
    · intro h
      exact absurd h (readlines_nonempty c cs)
    · intro h
      cases h

theorem readlines_rstrip_nlFree (x : List Char) :
    ∀ p ∈ pyReadlines x, nlFree (pyRstripNl p) = true := by
  induction x with
  | nil => intro p hp; simp [pyReadlines] at hp
  | cons c cs ih =>
    intro p hp
    rw [pyReadlines] at hp
    by_cases hc : c = '\n'
    · rw [if_pos hc] at hp
      rcases List.mem_cons.mp hp with rfl | hpm
      · decide
      · exact ih p hpm
    · rw [if_neg hc] at hp
      cases hx : pyReadlines cs with
      | nil =>
        rw [hx] at hp
        rw [List.mem_singleton] at hp
        subst hp
        rw [pyRstripNl, dropTrailing]
        simp [hc, nlFree, dropTrailing]
      | cons q qs =>
        rw [hx] at hp
        rcases List.mem_cons.mp hp with rfl | hpm
        · rw [pyRstripNl, dropTrailing_cons_not c q (by simp [hc])]
          have hq : nlFree (pyRstripNl q) = true := ih q (by rw [hx]; simp)
          rw [nlFree, List.all_cons]
          rw [pyRstripNl, nlFree] at hq
          simp [hc, hq]
        · exact ih p (by rw [hx]; exact List.mem_cons_of_mem q hpm)

theorem readlines_heads (x : List Char) :
    (noLowerAfterNl x = true →
      ∀ p ∈ (pyReadlines x).tail, startsLower p = false) ∧
    (noLowerAfterNl x = true →
      (∀ c, x.head? = some c → pyIsLower c = false) →
      ∀ p ∈ pyReadlines x, startsLower p = false) := by
  induction x with
  | nil =>
    refine ⟨?_, ?_⟩
    · intro _ p hp
      simp [pyReadlines] at hp
    · intro _ _ p hp
      simp [pyReadlines] at hp
  | cons c cs ih =>
    refine ⟨?_, ?_⟩
    · intro hno p hp
      rw [pyReadlines] at hp
      by_cases hc : c = '\n'
      · rw [if_pos hc, List.tail_cons] at hp
        refine ih.2 (noLowerAfterNl_tail c cs hno) ?_ p hp
        intro d hd
        subst hc
        exact noLowerAfterNl_head_after_nl cs hno d hd
      · rw [if_neg hc] at hp
        cases hx : pyReadlines cs with
        | nil =>
          rw [hx] at hp
          simp at hp
        | cons q qs =>
          rw [hx, List.tail_cons] at hp
          refine ih.1 (noLowerAfterNl_tail c cs hno) p ?_
          rw [hx, List.tail_cons]
          exact hp
    · intro hno hhead p hp
      rw [pyReadlines] at hp
      by_cases hc : c = '\n'
      · rw [if_pos hc] at hp
        rcases List.mem_cons.mp hp with rfl | hpm
        · decide
        · refine ih.2 (noLowerAfterNl_tail c cs hno) ?_ p hpm
          intro d hd
          subst hc
          exact noLowerAfterNl_head_after_nl cs hno d hd
      · rw [if_neg hc] at hp
        have hcl : pyIsLower c = false := hhead c rfl
        cases hx : pyReadlines cs with
        | nil =>
          rw [hx] at hp
          rw [List.mem_singleton] at hp
          subst hp
          simpa [startsLower] using hcl
        | cons q qs =>
          rw [hx] at hp
          rcases List.mem_cons.mp hp with rfl | hpm
          · simpa [startsLower] using hcl
          · refine ih.1 (noLowerAfterNl_tail c cs hno) p ?_
            rw [hx, List.tail_cons]
            exact hpm

theorem dropFinalNl_cons (c : Char) (cs : List Char) (h : cs ≠ []) :
    dropFinalNl (c :: cs) = c :: dropFinalNl cs := by
  rw [dropFinalNl, dropFinalNl]
  cases cs with
  | nil => exact absurd rfl h
  | cons d ds =>
    rw [List.getLast?_cons_cons]
    by_cases hl : (d :: ds).getLast? = some '\n'
    · rw [if_pos hl, if_pos hl]
      rfl
    · rw [if_neg hl, if_neg hl]

theorem joinNl_rstrip_readlines (y : List Char) :
    joinNl ((pyReadlines y).map pyRstripNl) = dropFinalNl y := by
  induction y with
  | nil => simp [pyReadlines, joinNl, dropFinalNl]
  | cons c cs ih =>
    rw [pyReadlines]
    by_cases hc : c = '\n'
    · rw [if_pos hc, List.map_cons,
        show pyRstripNl ['\n'] = [] from by decide]
      cases hx : pyReadlines cs with
      | nil =>
        have hcs : cs = [] := (readlines_nil_iff cs).mp hx
        subst hcs
        subst hc
        decide
      | cons q qs =>
        have hcsne : cs ≠ [] := by
          intro h0
          rw [h0] at hx
          simp [pyReadlines] at hx
        rw [hx] at ih
        rw [List.map_cons] at ih
        rw [List.map_cons, joinNl_cons_cons, List.nil_append, ih]
        subst hc
        rw [dropFinalNl_cons '\n' cs hcsne]
    · rw [if_neg hc]
      cases hx : pyReadlines cs with
      | nil =>
        have hcs : cs = [] := (readlines_nil_iff cs).mp hx
        subst hcs
        show joinNl [pyRstripNl [c]] = dropFinalNl [c]
        rw [show pyRstripNl [c] = [c] from by
          rw [pyRstripNl, dropTrailing]
          simp [hc, dropTrailing]]
        rw [dropFinalNl]
        rw [if_neg (by simpa using hc)]
        rfl
      | cons q qs =>
        have hcsne : cs ≠ [] := by
          intro h0
          rw [h0] at hx
          simp [pyReadlines] at hx
        rw [hx] at ih
        show joinNl (List.map pyRstripNl ((c :: q) :: qs)) = dropFinalNl (c :: cs)
        rw [List.map_cons]
        rw [show pyRstripNl (c :: q) = c :: pyRstripNl q from by
          rw [pyRstripNl, pyRstripNl, dropTrailing_cons_not c q (by simp [hc])]]
        rw [joinNl_cons_head]
        rw [List.map_cons] at ih
        rw [ih]
        rw [dropFinalNl_cons c cs hcsne]

theorem splitNl_heads (x : List Char) :
    (noLowerAfterNl x = true →
      ∀ p ∈ (pySplitNl x).tail, startsLower p = false) ∧
    (noLowerAfterNl x = true →
      (∀ c, x.head? = some c → pyIsLower c = false) →
      ∀ p ∈ pySplitNl x, startsLower p = false) := by
  induction x with
  | nil =>
    refine ⟨?_, ?_⟩
    · intro _ p hp
      simp [pySplitNl] at hp
    · intro _ _ p hp
      simp [pySplitNl] at hp
      subst hp
      rfl
  | cons c cs ih =>
    refine ⟨?_, ?_⟩
    · intro hno p hp
      rw [pySplitNl] at hp
      by_cases hc : c = '\n'
      · rw [if_pos hc, List.tail_cons] at hp
        refine ih.2 (noLowerAfterNl_tail c cs hno) ?_ p hp
        intro d hd
        subst hc
        exact noLowerAfterNl_head_after_nl cs hno d hd
      · rw [if_neg hc] at hp
        cases hx : pySplitNl cs with
        | nil =>
          rw [hx] at hp
          simp at hp
        | cons q qs =>
          rw [hx, List.tail_cons] at hp
          refine ih.1 (noLowerAfterNl_tail c cs hno) p ?_
          rw [hx, List.tail_cons]
          exact hp
    · intro hno hhead p hp
      rw [pySplitNl] at hp
      by_cases hc : c = '\n'
      · rw [if_pos hc] at hp
        rcases List.mem_cons.mp hp with rfl | hpm
        · rfl
        · refine ih.2 (noLowerAfterNl_tail c cs hno) ?_ p hpm
          intro d hd
          subst hc
          exact noLowerAfterNl_head_after_nl cs hno d hd
      · rw [if_neg hc] at hp
        have hcl : pyIsLower c = false := hhead c rfl
        cases hx : pySplitNl cs with
        | nil =>
          rw [hx] at hp
          rw [List.mem_singleton] at hp
          subst hp
          simpa [startsLower] using hcl
        | cons q qs =>
          rw [hx] at hp
          rcases List.mem_cons.mp hp with rfl | hpm
          · simpa [startsLower] using hcl
          · refine ih.1 (noLowerAfterNl_tail c cs hno) p ?_
            rw [hx, List.tail_cons]
            exact hpm

theorem reverse_dropLast {α : Type} (l : List α) :
    l.reverse.dropLast = l.tail.reverse := by
  cases l with
  | nil => rfl
  | cons a t =>
    rw [List.reverse_cons, List.dropLast_concat, List.tail_cons]

theorem noLowerButLast_dropLast (zs : List Line)
    (h : noLowerButLast zs = true) :
    ∀ e ∈ zs.dropLast, startsLower e = false := by
  induction zs with
  | nil => intro e he; simp at he
  | cons z zs ih =>
    intro e he
    cases zs with
    | nil => simp at he
    | cons z2 zs2 =>
      have hunf : noLowerButLast (z :: z2 :: zs2) =
          (!(startsLower z) && noLowerButLast (z2 :: zs2)) := rfl
      rw [hunf, Bool.and_eq_true] at h
      have hdl : (z :: z2 :: zs2).dropLast = z :: (z2 :: zs2).dropLast := rfl
      rw [hdl] at he
      rcases List.mem_cons.mp he with rfl | hm
      · simpa using h.1
      · exact ih h.2 e hm

theorem hasTripleNl_append_right (a w : List Char)
    (ha : hasTripleNl a = true) : hasTripleNl (a ++ w) = true := by
  induction a with
  | nil => simp [hasTripleNl] at ha
  | cons a0 as ih =>
    cases as with
    | nil => simp [hasTripleNl] at ha
    | cons a1 as2 =>
      cases as2 with
      | nil => simp [hasTripleNl] at ha
      | cons a2 as3 =>
        rw [hasTripleNl, Bool.or_eq_true] at ha
        rcases ha with htr | hrest
        · simp only [Bool.and_eq_true, decide_eq_true_eq] at htr
          obtain ⟨⟨h0, h1⟩, h2⟩ := htr
          subst h0
          subst h1
          subst h2
          rw [List.cons_append, List.cons_append, List.cons_append, hasTripleNl]
          simp
        · rw [List.cons_append]
          exact hasTripleNl_cons a0 _ (ih hrest)

/-- Every normalizer output satisfies the character-level invariants: no
newline is immediately followed by a lowercase letter, and no three
newlines are adjacent. -/
theorem normalize_noLowerAfterNl (x : List Char) :
    noLowerAfterNl (normalize x) = true := by
  have hout := modifyRev_noLowerButLast ((pyReadlines x).reverse)
  have hfree : ∀ e ∈ modifyRev ((pyReadlines x).reverse), nlFree e = true := by
    apply modifyRev_nlFree
    intro p hp
    exact readlines_rstrip_nlFree x p (List.mem_reverse.mp hp)
  have hfree2 : ∀ e ∈ (modifyRev ((pyReadlines x).reverse)).reverse,
      nlFree e = true :=
    fun e he => hfree e (List.mem_reverse.mp he)
  have hrt : (modifyRev ((pyReadlines x).reverse)).reverse.tail =
      (modifyRev ((pyReadlines x).reverse)).dropLast.reverse := by
    have h2 := reverse_dropLast (modifyRev ((pyReadlines x).reverse)).reverse
    rw [List.reverse_reverse] at h2
    rw [h2, List.reverse_reverse]
  have htail : ∀ e ∈ (modifyRev ((pyReadlines x).reverse)).reverse.tail,
      startsLower e = false := by
    intro e he
    rw [hrt] at he
    exact noLowerButLast_dropLast _ hout e (List.mem_reverse.mp he)
  have hjoin : noLowerAfterNl
      (joinNl (modifyRev ((pyReadlines x).reverse)).reverse) = true :=
    joinNl_noLower _ hfree2 htail
  show noLowerAfterNl
    (reduceNlAux 0 (joinNl (modifyRev ((pyReadlines x).reverse)).reverse)) = true
  exact reduceNlAux_noLower _ 0 hjoin (fun h1 => absurd h1 (by omega))

theorem normalize_no_triple (x : List Char) :
    hasTripleNl (normalize x) = false := by
  show hasTripleNl
    (reduceNlAux 0 (joinNl (modifyRev ((pyReadlines x).reverse)).reverse)) = false
  exact reduceNlAux_no_triple _ 0

/-- C6 (amended).  Every normalizer output satisfies: no output line
begins with a lowercase letter unless it is the very first line, and the
output never contains three consecutive newline characters — i.e. no run
of blank lines STRICTLY BETWEEN non-blank lines exceeds one.  (At the
document boundaries a run of two blank lines may survive, which is what
the counterexample exhibits; the claim's unqualified "no run of blank
lines exceeds one" is therefore amended to the interior form.) -/
theorem normalize_output_invariant (x : List Char) :
    ((pySplitNl (normalize x)).tail.all (fun l => !(startsLower l))) = true ∧
    hasTripleNl (normalize x) = false := by
  refine ⟨?_, normalize_no_triple x⟩
  rw [List.all_eq_true]
  intro e he
  have := (splitNl_heads (normalize x)).1 (normalize_noLowerAfterNl x) e he
  simp [this]

/-- C5 (amended).  The normalizer is NOT idempotent in general: a second
application removes exactly one trailing newline character when the
normalized document ends with one (its final `'\n'.join` emits one
newline per blank trailing line, and the next `readlines()` sees one line
fewer).  Hence `normalize (normalize x) = dropFinalNl (normalize x)`, and
`normalize` is idempotent exactly on those inputs whose normal form does
not end with a newline (no trailing blank line). -/
theorem normalize_squared_drops_final_newline (x : List Char) :
    normalize (normalize x) = dropFinalNl (normalize x) := by
  have hnoLower : noLowerAfterNl (normalize x) = true := normalize_noLowerAfterNl x
  have hnoTriple : hasTripleNl (normalize x) = false := normalize_no_triple x
  have htails : ∀ p ∈ (pyReadlines (normalize x)).tail, startsLower p = false :=
    (readlines_heads (normalize x)).1 hnoLower
  have hmerge : modifyRev ((pyReadlines (normalize x)).reverse) =
      ((pyReadlines (normalize x)).reverse).map pyRstripNl := by
    apply modifyRev_no_merge
    intro p hp
    apply htails
    rw [reverse_dropLast] at hp
    exact List.mem_reverse.mp hp
  have hTripleDrop : hasTripleNl (dropFinalNl (normalize x)) = false := by
    rw [dropFinalNl]
    split
    · by_contra hcon
      rw [Bool.not_eq_false] at hcon
      have hyne : normalize x ≠ [] := by
        intro h0
        rw [h0] at hcon
        simp [hasTripleNl] at hcon
      have hdecomp := List.dropLast_append_getLast hyne
      have htr := hasTripleNl_append_right _ [(normalize x).getLast hyne] hcon
      rw [hdecomp] at htr
      rw [htr] at hnoTriple
      cases hnoTriple
    · exact hnoTriple
  show reduceNlAux 0
      (joinNl (modifyRev ((pyReadlines (normalize x)).reverse)).reverse) =
    dropFinalNl (normalize x)
  rw [hmerge, List.map_reverse, List.reverse_reverse, joinNl_rstrip_readlines]
  have hid := reduceNlAux_id (dropFinalNl (normalize x)) 0
    (by simpa using hTripleDrop)
  simpa using hid

end Coriolanus
